import Mathlib

/-!
Shallow embedding of the `hellochain` single-node blockchain (Rust sources:
`src/transaction.rs`, `src/wallet.rs`, `src/block.rs`, `src/blockchain.rs`,
`src/errors.rs`) and verification of its specification claims.

Modelling conventions:

* Rust `f64` amounts are modelled as exact rationals `ℚ`.  The specification
  states all monetary facts in exact decimals, so `ℚ` is the semantic domain
  of the design; floating-point rounding is out of scope.  Because the
  library's `Rat.add`/`Rat.mul`/… are `@[irreducible]`, the embedding uses
  its own kernel-reducible wrappers `qadd`/`qsub`/`qmul`/`qdiv`/`qlt`/`qle`
  built on `mkRat`, each proved equal to the library operation.
* SHA-256 (`transaction.rs::calculate_hash`) is modelled as an ideal
  collision-free digest function: a length-prefixed injective encoding.
  Every property proved about hashes uses only determinism and (for the
  Merkle order-sensitivity claim) injectivity, which is the idealization of
  collision resistance the spec itself assumes.
* Rust `HashMap<String, _>` is modelled as a function `String → Option _`
  updated pointwise.
* Sources of nondeterminism (current time `Utc::now`, the `rand` draws, and
  the unbounded proof-of-work search) are passed in explicitly: timestamps
  as `ℤ` parameters, random draws as a `ℚ` (`[0,1)` draw) or `Bool`
  (delegate coin-flip) parameter, and the proof-of-work loop as fuel-bounded
  recursion (`none` marks only “search did not finish within the fuel”,
  which has no counterpart in the Rust source and is never a program
  outcome).
* Rust methods taking `&mut self` and returning `Result<T, E>` become pure
  functions returning the post-call state paired with an
  `Except BlockchainError T`; an early `return Err(..)` in the source leaves
  `self` untouched, so the model returns the unchanged state there.
-/

/-! ## Kernel-reducible rational arithmetic used by the embedding -/

/-- Addition on `ℚ` by the textbook cross-multiplication formula; equals
library addition (`qadd_eq`) but reduces in the kernel. -/
def qadd (a b : ℚ) : ℚ := mkRat (a.num * b.den + b.num * a.den) (a.den * b.den)

/-- Subtraction on `ℚ`, kernel-reducible. -/
def qsub (a b : ℚ) : ℚ := mkRat (a.num * b.den - b.num * a.den) (a.den * b.den)

/-- Multiplication on `ℚ`, kernel-reducible. -/
def qmul (a b : ℚ) : ℚ := mkRat (a.num * b.num) (a.den * b.den)

/-- Division on `ℚ`, kernel-reducible (`0` for a zero divisor, as in the
library). -/
def qdiv (a b : ℚ) : ℚ := Rat.divInt (a.num * b.den) (a.den * b.num)

/-- Strict comparison on `ℚ` as a `Bool`, mirroring a Rust `<` on amounts. -/
def qlt (a b : ℚ) : Bool := Rat.blt a b

/-- Non-strict comparison on `ℚ` as a `Bool`, mirroring a Rust `<=`. -/
def qle (a b : ℚ) : Bool := !(Rat.blt b a)

/-! ## Hashing utility (`transaction.rs::calculate_hash`)

The Rust function is SHA-256 rendered as a hex string.  The model replaces it
by a deterministic, injective, prefix-parsable digest: the input preceded by
a unary length marker and a separator.  `hash_inj` (determinism is
definitional) and `hash_append_inj` below are the idealized
collision-resistance facts the design relies on. -/

/-- Model of `calculate_hash`: an ideal injective digest standing in for the
SHA-256 hex string. -/
def Transaction.calculate_hash (data : String) : String :=
  String.mk (List.replicate data.data.length 'x') ++ ":" ++ data

/-- A string is a digest when it is an output of `calculate_hash`. -/
def IsDigest (s : String) : Prop := ∃ t, s = Transaction.calculate_hash t

/-- Rendering of an `f64` amount inside a hashed payload (Rust formats the
float with `Display`; the model renders the exact rational, which is likewise
injective). -/
def fmtRat (q : ℚ) : String := toString q.num ++ "/" ++ toString q.den

/-! ## Transactions (`src/transaction.rs`) -/

/-- Transaction kinds (`transaction.rs::TransactionType`). -/
inductive TransactionType where
  | Transfer : TransactionType
  | SmartContract (code : String) : TransactionType
  | Data (payload : List Nat) : TransactionType
deriving DecidableEq

/-- A ledger transaction (`transaction.rs::Transaction`). -/
structure Transaction where
  id : String
  transaction_type : TransactionType
  sender : String
  receiver : String
  amount : ℚ
  fee : ℚ
  timestamp : ℤ
  signature : String
deriving DecidableEq

/-- Constructor `Transaction::new`; `Utc::now().timestamp()` is passed in as
the `timestamp` argument. -/
def Transaction.new (sender receiver : String) (amount : ℚ)
    (transaction_type : TransactionType) (timestamp : ℤ) : Transaction :=
  let tx_data := sender ++ receiver ++ fmtRat amount ++ toString timestamp
  let id := Transaction.calculate_hash tx_data
  let signature := "sig_" ++ Transaction.calculate_hash (id ++ toString timestamp)
  let fee : ℚ :=
    match transaction_type with
    | TransactionType.Transfer => qmul (mkRat 1 1000) amount
    | TransactionType.SmartContract _ => qadd (qmul (mkRat 1 100) amount) (mkRat 1 2)
    | TransactionType.Data payload =>
        qadd (qmul (mkRat 5 1000) amount) (qmul (mkRat payload.length 1) (mkRat 1 10000))
  { id := id, transaction_type := transaction_type, sender := sender,
    receiver := receiver, amount := amount, fee := fee,
    timestamp := timestamp, signature := signature }

/-- Validity predicate `Transaction::is_valid`: non-empty sender and
receiver, positive amount. -/
def Transaction.is_valid (t : Transaction) : Bool :=
  !t.sender.isEmpty && !t.receiver.isEmpty && qlt 0 t.amount

/-! ## Wallets (`src/wallet.rs`) -/

/-- A wallet (`wallet.rs::Wallet`). -/
structure Wallet where
  address : String
  balance : ℚ
  staking_balance : ℚ
  transaction_history : List String
deriving DecidableEq

/-- Constructor `Wallet::new`: zero balances, empty history. -/
def Wallet.new (address : String) : Wallet :=
  { address := address, balance := 0, staking_balance := 0, transaction_history := [] }

/-! ## Blocks and the Merkle committer (`src/block.rs`) -/

/-- A block (`block.rs::Block`). -/
structure Block where
  index : Nat
  timestamp : ℤ
  transactions : List Transaction
  merkle_root : String
  previous_hash : String
  hash : String
  nonce : Nat
  difficulty : Nat
  validator : Option String
deriving DecidableEq

/-- Leaf digest of one transaction inside `Block::calculate_merkle_root`:
the hash of sender, receiver and amount only. -/
def txLeaf (tx : Transaction) : String :=
  Transaction.calculate_hash (tx.sender ++ tx.receiver ++ fmtRat tx.amount)

/-- One pairing pass of the Merkle `while` loop: adjacent digests are
combined left to right, a trailing unpaired digest is carried forward. -/
def merkleLevel : List String → List String
  | [] => []
  | [x] => [x]
  | x :: y :: rest => Transaction.calculate_hash (x ++ y) :: merkleLevel rest

/-- The Merkle `while hashes.len() > 1` loop: repeat the pairing pass until a
single digest remains (the source indexes `hashes[0]`, which is only reached
on a non-empty list; the model returns `""` on `[]`). -/
def merkleFold (hashes : List String) : String :=
  match hashes with
  | [] => ""
  | [x] => x
  | x :: y :: rest =>
    merkleFold (merkleLevel (x :: y :: rest))
termination_by hashes.length
decreasing_by
  have hle : ∀ l : List String, (merkleLevel l).length ≤ l.length := by
    intro l
    induction l using merkleLevel.induct with
    | case1 => simp [merkleLevel]
    | case2 _ => simp [merkleLevel]
    | case3 z w tail ih => simp [merkleLevel]; omega
  have := hle rest
  simp only [merkleLevel, List.length_cons]
  omega

/-- Method `Block::calculate_merkle_root`: the sentinel `"0"` for an empty
list, otherwise the pairing fold over the leaf digests. -/
def Block.calculate_merkle_root (transactions : List Transaction) : String :=
  if transactions.isEmpty then "0"
  else merkleFold (transactions.map txLeaf)

/-- Method `Block::calculate_hash`: the digest of index, timestamp, Merkle
root, previous hash, nonce and difficulty (the `validator` and `hash` fields
are not part of the preimage). -/
def Block.calculate_hash (b : Block) : String :=
  Transaction.calculate_hash (toString b.index ++ toString b.timestamp ++ b.merkle_root ++
    b.previous_hash ++ toString b.nonce ++ toString b.difficulty)

/-- Constructor `Block::new`; `Utc::now().timestamp()` is the `timestamp`
argument.  The nonce starts at `0` and the stored hash is computed from the
fields. -/
def Block.new (index : Nat) (transactions : List Transaction)
    (previous_hash : String) (difficulty : Nat) (timestamp : ℤ) : Block :=
  let block : Block :=
    { index := index, timestamp := timestamp, transactions := transactions,
      merkle_root := Block.calculate_merkle_root transactions,
      previous_hash := previous_hash, hash := "", nonce := 0,
      difficulty := difficulty, validator := none }
  { block with hash := Block.calculate_hash block }

/-- The proof-of-work target `"0".repeat(difficulty)`. -/
def powTarget (difficulty : Nat) : String := String.mk (List.replicate difficulty '0')

/-- Method `Block::mine_block` as fuel-bounded recursion: while the hash
prefix of length `difficulty` differs from the target, bump the nonce and
recompute the hash.  `none` means the fuel ran out (the Rust loop is
unbounded and would keep searching). -/
def mineBlockGo : Nat → Block → Option Block
  | 0, b =>
    if b.hash.take b.difficulty = powTarget b.difficulty then some b else none
  | fuel + 1, b =>
    if b.hash.take b.difficulty = powTarget b.difficulty then some b
    else
      let b' : Block := { b with nonce := b.nonce + 1 }
      mineBlockGo fuel { b' with hash := Block.calculate_hash b' }

/-- Method `Block::validate_with_pos`: one uniform draw (passed in as
`random_value`) against the threshold `stake_amount / 1000`; on success the
validator is recorded and the hash recomputed, and the method reports whether
validation succeeded. -/
def Block.validate_with_pos (b : Block) (validator : String) (stake_amount : ℚ)
    (random_value : ℚ) : Bool × Block :=
  let validation_threshold := qdiv stake_amount (mkRat 1000 1)
  if qle random_value validation_threshold then
    let b' : Block := { b with validator := some validator }
    (true, { b' with hash := Block.calculate_hash b' })
  else
    (false, b)

/-! ## Errors (`src/errors.rs`) -/

/-- Error kinds (`errors.rs::BlockchainError`). -/
inductive BlockchainError where
  | InsufficientBalance (required available : ℚ) : BlockchainError
  | InvalidTransaction (msg : String) : BlockchainError
  | InvalidBlock (msg : String) : BlockchainError
  | ConsensusError (msg : String) : BlockchainError
deriving DecidableEq

/-- Decidable equality for `Except` results, used to evaluate the model on
concrete scenarios. -/
instance {ε α : Type} [DecidableEq ε] [DecidableEq α] : DecidableEq (Except ε α) := fun a b =>
  match a, b with
  | Except.ok x, Except.ok y =>
    if h : x = y then Decidable.isTrue (congrArg Except.ok h)
    else Decidable.isFalse (fun hh => h (by cases hh; rfl))
  | Except.ok _, Except.error _ => Decidable.isFalse (fun hh => Except.noConfusion hh)
  | Except.error _, Except.ok _ => Decidable.isFalse (fun hh => Except.noConfusion hh)
  | Except.error x, Except.error y =>
    if h : x = y then Decidable.isTrue (congrArg Except.error h)
    else Decidable.isFalse (fun hh => h (by cases hh; rfl))

/-! ## The chain orchestrator (`src/blockchain.rs`) -/

/-- Consensus strategy selection (`blockchain.rs::ConsensusAlgorithm`). -/
inductive ConsensusAlgorithm where
  | ProofOfWork : ConsensusAlgorithm
  | ProofOfStake : ConsensusAlgorithm
  | DelegatedProofOfStake : ConsensusAlgorithm
deriving DecidableEq

/-- The chain state (`blockchain.rs::Blockchain`); both `HashMap`s are
modelled as pointwise-updated functions. -/
structure Blockchain where
  chain : List Block
  difficulty : Nat
  pending_transactions : List Transaction
  mining_reward : ℚ
  wallets : String → Option Wallet
  consensus_algorithm : ConsensusAlgorithm
  transaction_fees : ℚ
  validators : String → Option ℚ

/-- Pointwise update standing in for `HashMap::insert`. -/
def mapInsert {α : Type} (m : String → Option α) (k : String) (v : α) :
    String → Option α :=
  fun a => if a = k then some v else m a

/-- Fallback block for the (unreachable in the source: the chain always
holds at least genesis) `chain[len - 1]` access on an empty chain. -/
def emptyChainBlock : Block :=
  { index := 0, timestamp := 0, transactions := [], merkle_root := "",
    previous_hash := "", hash := "", nonce := 0, difficulty := 0, validator := none }

/-- Method `Blockchain::get_latest_block` (`chain[chain.len() - 1]`). -/
def Blockchain.get_latest_block (bc : Blockchain) : Block :=
  bc.chain.getLast?.getD emptyChainBlock

/-- Method `Blockchain::create_genesis_block`: push `Block::new(0, [], "0",
difficulty)` onto the chain. -/
def Blockchain.create_genesis_block (bc : Blockchain) (timestamp : ℤ) : Blockchain :=
  { bc with chain := bc.chain ++ [Block.new 0 [] "0" bc.difficulty timestamp] }

/-- Constructor `Blockchain::new`: empty state plus the genesis block. -/
def Blockchain.new (difficulty : Nat) (mining_reward : ℚ)
    (consensus_algorithm : ConsensusAlgorithm) (genesisTime : ℤ) : Blockchain :=
  Blockchain.create_genesis_block
    { chain := [], difficulty := difficulty, pending_transactions := [],
      mining_reward := mining_reward, wallets := fun _ => none,
      consensus_algorithm := consensus_algorithm, transaction_fees := 0,
      validators := fun _ => none } genesisTime

/-- Method `Blockchain::create_wallet`: unconditionally insert a fresh
wallet under the address (the source also returns a reference to it). -/
def Blockchain.create_wallet (bc : Blockchain) (address : String) : Blockchain :=
  { bc with wallets := mapInsert bc.wallets address (Wallet.new address) }

/-- Method `Blockchain::add_funds_to_wallet`. -/
def Blockchain.add_funds_to_wallet (bc : Blockchain) (address : String) (amount : ℚ) :
    Blockchain × Except BlockchainError Unit :=
  match bc.wallets address with
  | some wallet =>
    let wallet' : Wallet := { wallet with balance := qadd wallet.balance amount }
    ({ bc with wallets := mapInsert bc.wallets address wallet' }, Except.ok ())
  | none =>
    (bc, Except.error (BlockchainError.InvalidTransaction
      ("Кошелек " ++ address ++ " не найден")))

/-- Method `Blockchain::add_transaction`: validity check, then (for a
non-reward sender) existence and balance checks, immediate debit of
`amount + fee` with a history append, and finally the push onto the pending
pool. -/
def Blockchain.add_transaction (bc : Blockchain) (transaction : Transaction) :
    Blockchain × Except BlockchainError Unit :=
  if !transaction.is_valid then
    (bc, Except.error (BlockchainError.InvalidTransaction "Транзакция невалидна"))
  else
    let total_amount := qadd transaction.amount transaction.fee
    if transaction.sender ≠ "BLOCKCHAIN_REWARD" then
      match bc.wallets transaction.sender with
      | some wallet =>
        if qlt wallet.balance total_amount then
          (bc, Except.error (BlockchainError.InsufficientBalance total_amount wallet.balance))
        else
          let wallet' : Wallet :=
            { wallet with
              balance := qsub wallet.balance total_amount,
              transaction_history := wallet.transaction_history ++ [transaction.id] }
          let bc' := { bc with wallets := mapInsert bc.wallets transaction.sender wallet' }
          ({ bc' with pending_transactions := bc'.pending_transactions ++ [transaction] },
            Except.ok ())
      | none =>
        (bc, Except.error (BlockchainError.InvalidTransaction
          ("Wallet recipient " ++ transaction.sender ++ " not found")))
    else
      ({ bc with pending_transactions := bc.pending_transactions ++ [transaction] },
        Except.ok ())

/-- The fee sum `pending_transactions.iter().map(|tx| tx.fee).sum()`. -/
def sumFees (l : List Transaction) : ℚ :=
  l.foldl (fun acc tx => qadd acc tx.fee) 0

/-- One step of the settlement pass in `mine_pending_transactions`: a
transaction whose sender and receiver are both distinct from
`"BLOCKCHAIN_REWARD"` credits its receiver (creating the wallet if absent);
every other transaction is skipped. -/
def settleTx (wallets : String → Option Wallet) (tx : Transaction) :
    String → Option Wallet :=
  if tx.sender ≠ "BLOCKCHAIN_REWARD" ∧ tx.receiver ≠ "BLOCKCHAIN_REWARD" then
    match wallets tx.receiver with
    | some wallet =>
      let wallet' : Wallet :=
        { wallet with
          balance := qadd wallet.balance tx.amount,
          transaction_history := wallet.transaction_history ++ [tx.id] }
      mapInsert wallets tx.receiver wallet'
    | none =>
      let new_wallet : Wallet :=
        { address := tx.receiver, balance := tx.amount, staking_balance := 0,
          transaction_history := [tx.id] }
      mapInsert wallets tx.receiver new_wallet
  else wallets

/-- The success tail of `mine_pending_transactions`: settle every included
transaction, append the block, clear the pool, zero the fee accumulator. -/
def settleAndPush (bc : Blockchain) (new_block : Block) : Blockchain :=
  { bc with
    wallets := new_block.transactions.foldl settleTx bc.wallets,
    chain := bc.chain ++ [new_block],
    pending_transactions := [],
    transaction_fees := 0 }

/-- Method `Blockchain::mine_pending_transactions`.  External inputs are
explicit: `rewardTime`/`blockTime` are the clock reads for the reward
transaction and the candidate block, `fuel` bounds the proof-of-work search
(`none` = fuel exhausted, a modelling artifact only), `posDraw` is the
proof-of-stake uniform draw and `isDelegate` the delegated-proof-of-stake
coin flip. -/
def Blockchain.mine_pending_transactions (bc : Blockchain) (miner_address : String)
    (rewardTime blockTime : ℤ) (fuel : Nat) (posDraw : ℚ) (isDelegate : Bool) :
    Option (Blockchain × Except BlockchainError Unit) :=
  match bc.wallets miner_address with
  | none =>
    some (bc, Except.error (BlockchainError.InvalidTransaction
      ("Miner wallet " ++ miner_address ++ " not found")))
  | some _ =>
    let total_fees := sumFees bc.pending_transactions
    let bc1 := { bc with transaction_fees := total_fees }
    let reward_tx := Transaction.new "BLOCKCHAIN_REWARD" miner_address
      (qadd bc.mining_reward total_fees) TransactionType.Transfer rewardTime
    let bc2 := { bc1 with pending_transactions := bc1.pending_transactions ++ [reward_tx] }
    let new_block := Block.new bc2.chain.length bc2.pending_transactions
      bc2.get_latest_block.hash bc2.difficulty blockTime
    match bc2.consensus_algorithm with
    | ConsensusAlgorithm.ProofOfWork =>
      match mineBlockGo fuel new_block with
      | none => none
      | some mined => some (settleAndPush bc2 mined, Except.ok ())
    | ConsensusAlgorithm.ProofOfStake =>
      match bc2.validators miner_address with
      | some stake =>
        let result := Block.validate_with_pos new_block miner_address stake posDraw
        if result.1 then some (settleAndPush bc2 result.2, Except.ok ())
        else some (bc2, Except.error
          (BlockchainError.ConsensusError "Cannot validate block with PoS"))
      | none =>
        some (bc2, Except.error (BlockchainError.ConsensusError
          ("This address " ++ miner_address ++ " is not a validator")))
    | ConsensusAlgorithm.DelegatedProofOfStake =>
      if !isDelegate then
        some (bc2, Except.error (BlockchainError.ConsensusError
          "This address is not a delegate of this block"))
      else
        some (settleAndPush bc2 { new_block with validator := some miner_address },
          Except.ok ())

/-- Method `Blockchain::add_validator`: move `stake_amount` from balance to
staking balance and record the stake in the registry. -/
def Blockchain.add_validator (bc : Blockchain) (address : String) (stake_amount : ℚ) :
    Blockchain × Except BlockchainError Unit :=
  match bc.wallets address with
  | some wallet =>
    if qlt wallet.balance stake_amount then
      (bc, Except.error (BlockchainError.InsufficientBalance stake_amount wallet.balance))
    else
      let wallet' : Wallet :=
        { wallet with
          balance := qsub wallet.balance stake_amount,
          staking_balance := qadd wallet.staking_balance stake_amount }
      ({ bc with
          wallets := mapInsert bc.wallets address wallet',
          validators := mapInsert bc.validators address stake_amount },
        Except.ok ())
  | none =>
    (bc, Except.error (BlockchainError.InvalidTransaction
      ("Cannot find wallet " ++ address)))

/-- The per-index body of the `is_chain_valid` loop, for a current block and
its predecessor. -/
def checkBlockPair (previous_block current_block : Block) : Bool :=
  (current_block.hash == Block.calculate_hash current_block) &&
  (current_block.previous_hash == previous_block.hash) &&
  (current_block.merkle_root == Block.calculate_merkle_root current_block.transactions)

/-- The `for i in 1..chain.len()` walk of `is_chain_valid`, carried out along
adjacent pairs. -/
def validFrom : Block → List Block → Bool
  | _, [] => true
  | prev, cur :: rest => checkBlockPair prev cur && validFrom cur rest

/-- Method `Blockchain::is_chain_valid`: audit every block after genesis in
index order, stopping at the first failure. -/
def Blockchain.is_chain_valid (bc : Blockchain) : Bool :=
  match bc.chain with
  | [] => true
  | g :: rest => validFrom g rest

/-- Method `Blockchain::get_balance`: the wallet balance, or `0` for an
unknown address. -/
def Blockchain.get_balance (bc : Blockchain) (address : String) : ℚ :=
  match bc.wallets address with
  | some wallet => wallet.balance
  | none => 0

/-- Method `Blockchain::adjust_difficulty`: when the chain length is a
multiple of 10 (and more than one block), compare the average block time of
the last ten blocks against the 60-unit target with a ±10% dead band. -/
def Blockchain.adjust_difficulty (bc : Blockchain) : Blockchain :=
  if bc.chain.length % 10 = 0 ∧ bc.chain.length > 1 then
    let last_ten_blocks := bc.chain.drop (bc.chain.length - 10)
    let latest_block := bc.get_latest_block
    let first_of_last_ten := last_ten_blocks.headD emptyChainBlock
    let time_diff : ℤ := latest_block.timestamp - first_of_last_ten.timestamp
    let avg_block_time : ℚ := qdiv (mkRat time_diff 1) (mkRat 10 1)
    let target_time : ℚ := mkRat 60 1
    if qlt avg_block_time (qmul target_time (mkRat 9 10)) then
      { bc with difficulty := bc.difficulty + 1 }
    else if qlt (qmul target_time (mkRat 11 10)) avg_block_time ∧ bc.difficulty > 1 then
      { bc with difficulty := bc.difficulty - 1 }
    else bc
  else bc

/-! ## Reference definitions written from the specification text

These three definitions restate §4.1 of the spec (the Merkle Committer) in
its own words, for the refinement claim that the code's
`Block.calculate_merkle_root` computes exactly this fold. -/

/-- Spec §4.1: the leaf digest over the semantically identifying fields
sender, receiver and amount (fee, timestamp and id excluded). -/
def specLeaf (t : Transaction) : String :=
  Transaction.calculate_hash (t.sender ++ t.receiver ++ fmtRat t.amount)

/-- Spec §4.1: pair adjacent digests left-to-right, concatenate and re-hash
each pair, carry forward an unpaired trailing digest unchanged. -/
def specPairPass : List String → List String
  | a :: b :: rest => Transaction.calculate_hash (a ++ b) :: specPairPass rest
  | l => l

/-- Spec §4.1: repeat the pairing pass until one digest remains. -/
def specCollapse (digests : List String) : String :=
  match digests with
  | [] => ""
  | [d] => d
  | a :: b :: rest =>
    specCollapse (specPairPass (a :: b :: rest))
termination_by digests.length
decreasing_by
  have hle : ∀ l : List String, (specPairPass l).length ≤ l.length := by
    intro l
    induction l using specPairPass.induct with
    | case1 z w tail ih => simp [specPairPass]; omega
    | case2 h1 h2 => simp [specPairPass]
  have := hle rest
  simp only [specPairPass, List.length_cons]
  omega

/-- Spec §4.1: the committer maps transactions to leaves and collapses them;
an empty list yields the fixed sentinel digest `"0"`. -/
def specMerkleRoot (transactions : List Transaction) : String :=
  if transactions = [] then "0"
  else specCollapse (transactions.map specLeaf)

/-- Applying a positional permutation to a list (used to state the
order-sensitivity claim about the Merkle committer). -/
def permuteList {α : Type} (l : List α) (σ : Equiv.Perm (Fin l.length)) : List α :=
  List.ofFn (fun i => l.get (σ i))

/-! ## Concrete scenario states used to exercise the claims -/

/-- Proof-of-work chain with difficulty 0 (the spec scenario fixes no
difficulty; difficulty 0 lets the nonce search finish immediately) and
mining reward 100. -/
def c1Base : Blockchain := Blockchain.new 0 (100 : ℚ) ConsensusAlgorithm.ProofOfWork 0

/-- The scenario ledger: wallets alice, bob, miner; alice funded with 1000
and bob with 500. -/
def c1Funded : Blockchain :=
  ((((c1Base.create_wallet "alice").create_wallet "bob").create_wallet
      "miner").add_funds_to_wallet "alice" 1000).1.add_funds_to_wallet "bob" 500 |>.1

/-- The scenario transfer of 50 from alice to bob (fee 0.001 · 50 = 0.05). -/
def c1Tx : Transaction := Transaction.new "alice" "bob" 50 TransactionType.Transfer 11

/-- The ledger after the transfer is admitted. -/
def c1Admitted : Blockchain := (c1Funded.add_transaction c1Tx).1

/-- The outcome of mining the pending pool as "miner". -/
def c1Result : Option (Blockchain × Except BlockchainError Unit) :=
  c1Admitted.mine_pending_transactions "miner" 12 13 0 0 false

/-- A fresh proof-of-stake chain with one wallet "v" that is not a
registered validator. -/
def posBC : Blockchain :=
  (Blockchain.new 1 (50 : ℚ) ConsensusAlgorithm.ProofOfStake 0).create_wallet "v"

/-- The state `posBC` reaches when block production fails at the consensus
step: fees accumulated and the synthesized reward transaction queued. -/
def posSt : Blockchain :=
  { posBC with
    transaction_fees := mkRat 0 1,
    pending_transactions :=
      [Transaction.new "BLOCKCHAIN_REWARD" "v" (qadd 50 0) TransactionType.Transfer 7] }

/-- A proof-of-stake chain whose wallet "v" is registered as a validator
with stake 0. -/
def posZeroBC : Blockchain :=
  (((Blockchain.new 1 (50 : ℚ) ConsensusAlgorithm.ProofOfStake 0).create_wallet
      "v").add_validator "v" 0).1

/-- The post-failure state of `posZeroBC` (reward transaction queued, fee
accumulator written). -/
def posZeroSt : Blockchain :=
  { posZeroBC with
    transaction_fees := mkRat 0 1,
    pending_transactions :=
      [Transaction.new "BLOCKCHAIN_REWARD" "v" (qadd 50 0) TransactionType.Transfer 3] }

/-- A block with no transactions at difficulty 0, for exercising the block
invariants. -/
def genBlk : Block := Block.new 0 [] "0" 0 0

/-- A transaction used (twice) to exhibit a duplicate-entry list. -/
def tDup : Transaction := Transaction.new "a" "r" 1 TransactionType.Transfer 0

/-- A transaction with a different sender than `tDup`, hence a different
Merkle leaf. -/
def tOther : Transaction := Transaction.new "b" "r" 1 TransactionType.Transfer 0

/-- A ten-block chain (contents arbitrary: `adjust_difficulty` reads only
lengths and timestamps) with all timestamps equal, so the average block time
is 0, and difficulty 5. -/
def tenBC : Blockchain :=
  { chain := (List.range 10).map (fun i =>
      { index := i, timestamp := 0, transactions := [], merkle_root := "0",
        previous_hash := "", hash := "", nonce := 0, difficulty := 5,
        validator := none }),
    difficulty := 5, pending_transactions := [], mining_reward := 0,
    wallets := fun _ => none,
    consensus_algorithm := ConsensusAlgorithm.ProofOfWork,
    transaction_fees := 0, validators := fun _ => none }

/-- The ten-block chain with a 6000-unit timestamp span (average 600), for
the difficulty-decrease branch. -/
def tenSlowBC : Blockchain :=
  { tenBC with chain := (List.range 10).map (fun i =>
      { index := i, timestamp := 600 * (i : ℤ), transactions := [],
        merkle_root := "0", previous_hash := "", hash := "", nonce := 0,
        difficulty := 5, validator := none }) }


/-- The average block time that `adjust_difficulty` measures: the timestamp
span of the most recent ten blocks divided by 10. -/
def avgTime (bc : Blockchain) : ℚ :=
  ((bc.get_latest_block.timestamp -
    ((bc.chain.drop (bc.chain.length - 10)).headD emptyChainBlock).timestamp : ℤ) : ℚ) / 10

/-! ## Bridge lemmas for the kernel-reducible arithmetic -/

theorem qadd_eq (a b : ℚ) : qadd a b = a + b := (Rat.add_def' a b).symm

theorem qsub_eq (a b : ℚ) : qsub a b = a - b := (Rat.sub_def' a b).symm

theorem qmul_eq (a b : ℚ) : qmul a b = a * b := by
  rw [qmul, Rat.mul_def, Rat.normalize_eq_mkRat]

theorem qdiv_eq (a b : ℚ) : qdiv a b = a / b := by
  rw [qdiv, Rat.divInt_eq_div]
  rcases eq_or_ne b 0 with hb | hb
  · subst hb
    norm_num
  · have hbn : (b.num : ℚ) ≠ 0 := by
      exact_mod_cast Rat.num_ne_zero.mpr hb
    have had : ((a.den : ℤ) : ℚ) ≠ 0 := by
      exact_mod_cast a.den_pos.ne'
    have hbd : ((b.den : ℤ) : ℚ) ≠ 0 := by
      exact_mod_cast b.den_pos.ne'
    conv_rhs => rw [← Rat.num_div_den a, ← Rat.num_div_den b]
    push_cast
    field_simp

theorem qlt_iff (a b : ℚ) : qlt a b = true ↔ a < b := Iff.rfl

theorem qle_iff (a b : ℚ) : qle a b = true ↔ a ≤ b := by
  rw [qle, Bool.not_eq_true']
  exact Iff.rfl

theorem mkRat_int (n : ℤ) : mkRat n 1 = (n : ℚ) := Rat.mkRat_one n

/-! ## Idealized collision-resistance of the digest function -/

theorem calculate_hash_data (s : String) :
    (Transaction.calculate_hash s).data = List.replicate s.data.length 'x' ++ ':' :: s.data := by
  simp [Transaction.calculate_hash]

theorem replicate_append_sep_left {n m : Nat} {l l' : List Char}
    (h : List.replicate n 'x' ++ ':' :: l = List.replicate m 'x' ++ ':' :: l') :
    n = m := by
  induction n generalizing m with
  | zero =>
    cases m with
    | zero => rfl
    | succ m => simp [List.replicate_succ] at h
  | succ n ih =>
    cases m with
    | zero => simp [List.replicate_succ] at h
    | succ m =>
      simp only [List.replicate_succ, List.cons_append, List.cons.injEq] at h
      exact congrArg Nat.succ (ih h.2)

theorem hash_inj : Function.Injective Transaction.calculate_hash := by
  intro a b h
  have hd := congrArg String.data h
  rw [calculate_hash_data, calculate_hash_data] at hd
  have hn := replicate_append_sep_left hd
  rw [hn] at hd
  simp only [List.append_cancel_left_eq, List.cons.injEq, true_and] at hd
  exact String.ext hd

theorem hash_append_inj {a b c d : String}
    (h : Transaction.calculate_hash a ++ Transaction.calculate_hash b =
      Transaction.calculate_hash c ++ Transaction.calculate_hash d) :
    Transaction.calculate_hash a = Transaction.calculate_hash c ∧
    Transaction.calculate_hash b = Transaction.calculate_hash d := by
  have hd := congrArg String.data h
  rw [String.data_append, String.data_append, calculate_hash_data, calculate_hash_data,
    calculate_hash_data, calculate_hash_data] at hd
  have hn : a.data.length = c.data.length := by
    have h' := hd
    rw [List.append_assoc, List.append_assoc] at h'
    exact replicate_append_sep_left h'
  have hlen : (List.replicate a.data.length 'x' ++ ':' :: a.data).length =
      (List.replicate c.data.length 'x' ++ ':' :: c.data).length := by
    simp [hn]
  obtain ⟨h1, h2⟩ := List.append_inj hd hlen
  constructor
  · exact String.ext (by rw [calculate_hash_data, calculate_hash_data]; exact h1)
  · exact String.ext (by rw [calculate_hash_data, calculate_hash_data]; exact h2)

/-! ## The Merkle fold is collision-free on digest lists of equal length -/

theorem merkleLevel_length (l : List String) :
    (merkleLevel l).length = (l.length + 1) / 2 := by
  induction l using merkleLevel.induct with
  | case1 => simp [merkleLevel]
  | case2 _ => simp [merkleLevel]
  | case3 x y rest ih => simp [merkleLevel, ih]; omega

theorem merkleLevel_isDigest (l : List String) :
    (∀ x ∈ l, IsDigest x) → ∀ x ∈ merkleLevel l, IsDigest x := by
  induction l using merkleLevel.induct with
  | case1 => intro _; simp [merkleLevel]
  | case2 _ => intro h; simpa [merkleLevel] using h
  | case3 x y rest ih =>
    intro h z hz
    simp only [merkleLevel, List.mem_cons] at hz
    rcases hz with hz | hz
    · exact ⟨x ++ y, hz⟩
    · exact ih (fun w hw => h w (by simp [hw])) z hz

theorem merkleLevel_inj : ∀ (l1 l2 : List String), l1.length = l2.length →
    (∀ x ∈ l1, IsDigest x) → (∀ x ∈ l2, IsDigest x) →
    merkleLevel l1 = merkleLevel l2 → l1 = l2 := by
  intro l1
  induction l1 using merkleLevel.induct with
  | case1 =>
    intro l2 hlen _ _ _
    exact (List.eq_nil_of_length_eq_zero hlen.symm).symm
  | case2 x =>
    intro l2 hlen _ _ heq
    match l2, hlen with
    | [y], _ => simpa [merkleLevel] using heq
  | case3 x y rest ih =>
    intro l2 hlen hd1 hd2 heq
    match l2, hlen with
    | a :: b :: rest2, hlen =>
      simp only [merkleLevel, List.cons.injEq] at heq
      obtain ⟨hx, hxy⟩ : x = a ∧ y = b := by
        obtain ⟨px, hpx⟩ := hd1 x (by simp)
        obtain ⟨py, hpy⟩ := hd1 y (by simp)
        obtain ⟨pa, hpa⟩ := hd2 a (by simp)
        obtain ⟨pb, hpb⟩ := hd2 b (by simp)
        have := hash_inj heq.1
        rw [hpx, hpy, hpa, hpb] at this
        obtain ⟨e1, e2⟩ := hash_append_inj this
        exact ⟨by rw [hpx, hpa, e1], by rw [hpy, hpb, e2]⟩
      have hrest : rest = rest2 := by
        apply ih rest2 (by simpa using hlen)
        · exact fun w hw => hd1 w (by simp [hw])
        · exact fun w hw => hd2 w (by simp [hw])
        · exact heq.2
      rw [hx, hxy, hrest]

theorem merkleFold_inj : ∀ (n : Nat) (l1 l2 : List String), l1.length = n →
    l2.length = n → 0 < n →
    (∀ x ∈ l1, IsDigest x) → (∀ x ∈ l2, IsDigest x) →
    merkleFold l1 = merkleFold l2 → l1 = l2 := by
  intro n
  induction n using Nat.strong_induction_on with
  | _ n ih =>
    intro l1 l2 h1 h2 hpos hd1 hd2 heq
    match n, l1, l2, h1, h2, hpos with
    | 1, [x], [y], _, _, _ =>
      simpa [merkleFold] using heq
    | (m + 2), x :: y :: r1, a :: b :: r2, h1, h2, _ =>
      rw [merkleFold, merkleFold] at heq
      simp only [List.length_cons] at h1 h2
      have hlevlen : (merkleLevel (x :: y :: r1)).length = (m + 3) / 2 := by
        rw [merkleLevel_length]
        simp only [List.length_cons]
        omega
      have hlevlen2 : (merkleLevel (a :: b :: r2)).length = (m + 3) / 2 := by
        rw [merkleLevel_length]
        simp only [List.length_cons]
        omega
      have hlt : (m + 3) / 2 < m + 2 := by omega
      have hposlev : 0 < (m + 3) / 2 := by omega
      have hlev := ih ((m + 3) / 2) hlt (merkleLevel (x :: y :: r1))
        (merkleLevel (a :: b :: r2)) hlevlen hlevlen2 hposlev
        (merkleLevel_isDigest _ hd1) (merkleLevel_isDigest _ hd2) heq
      exact merkleLevel_inj _ _ (by simp only [List.length_cons]; omega) hd1 hd2 hlev

theorem permuteList_length {α : Type} (l : List α) (σ : Equiv.Perm (Fin l.length)) :
    (permuteList l σ).length = l.length := by
  simp [permuteList]

theorem txLeaf_isDigest (tx : Transaction) : IsDigest (txLeaf tx) :=
  ⟨tx.sender ++ tx.receiver ++ fmtRat tx.amount, rfl⟩

/-! ## Agreement of the code's Merkle committer with the spec's fold -/

theorem specPairPass_eq (l : List String) : specPairPass l = merkleLevel l := by
  induction l using merkleLevel.induct with
  | case1 => rfl
  | case2 _ => rfl
  | case3 x y rest ih => simp [specPairPass, merkleLevel, ih]

theorem specCollapse_eq (l : List String) : specCollapse l = merkleFold l := by
  induction l using merkleFold.induct with
  | case1 => simp [specCollapse, merkleFold]
  | case2 _ => simp [specCollapse, merkleFold]
  | case3 x y rest ih =>
    rw [specCollapse, merkleFold, specPairPass_eq]
    exact ih

/-- C7: `calculate_merkle_root` equals the reference fold of the spec: leaf
digests over exactly sender, receiver and amount (so transactions equal on
those three fields give equal leaves), pairwise left-to-right combination
with the trailing digest carried, and the fixed sentinel `"0"` (which is not
the hash of the empty input) on the empty list. -/
theorem C7_merkle_root_refines_spec (txs : List Transaction) (t1 t2 : Transaction) :
    Block.calculate_merkle_root txs = specMerkleRoot txs ∧
    (t1.sender = t2.sender → t1.receiver = t2.receiver → t1.amount = t2.amount →
      txLeaf t1 = txLeaf t2) ∧
    Block.calculate_merkle_root [] = "0" ∧
    "0" ≠ Transaction.calculate_hash "" := by
  refine ⟨?_, ?_, rfl, by decide⟩
  · rw [Block.calculate_merkle_root, specMerkleRoot]
    rcases txs with _ | ⟨t, ts⟩
    · simp
    · simp only [List.isEmpty_cons, List.cons_ne_nil, if_neg, Bool.false_eq_true,
        not_false_eq_true, reduceIte]
      rw [specCollapse_eq]
      rfl
  · intro h1 h2 h3
    simp [txLeaf, h1, h2, h3]

/-- Witness for C7: two transactions equal on sender, receiver and amount
but built with different kinds (hence different fee and id) share a leaf. -/
theorem C7_merkle_root_refines_spec_witness :
    txLeaf tDup = txLeaf (Transaction.new "a" "r" 1 (TransactionType.SmartContract "c") 5) :=
  (C7_merkle_root_refines_spec [] tDup
    (Transaction.new "a" "r" 1 (TransactionType.SmartContract "c") 5)).2.1 rfl rfl rfl

/-- C6 (counterexample): the claim quantifies over every non-identity
permutation of every list of length at least 2, but swapping the two entries
of the duplicate list `[tDup, tDup]` is a non-identity permutation that
leaves the list, and hence the root, unchanged. -/
theorem C6_order_sensitivity_counterexample :
    2 ≤ ([tDup, tDup] : List Transaction).length ∧
    (Equiv.swap (0 : Fin 2) 1) ≠ Equiv.refl (Fin 2) ∧
    Block.calculate_merkle_root
        (permuteList [tDup, tDup] (Equiv.swap 0 1 : Equiv.Perm (Fin 2))) =
      Block.calculate_merkle_root [tDup, tDup] :=
  ⟨by decide, by decide, congrArg Block.calculate_merkle_root (by decide)⟩

/-- C6 (amended): permuting a list of at least two transactions changes the
Merkle root whenever the permutation changes the sequence of leaf digests
(the counterexample shows the original "any non-identity permutation" is too
strong: a permutation may fix the leaf sequence, e.g. on duplicate entries). -/
theorem C6_order_sensitivity_amended (l : List Transaction)
    (σ : Equiv.Perm (Fin l.length)) (hlen : 2 ≤ l.length)
    (hleaf : (permuteList l σ).map txLeaf ≠ l.map txLeaf) :
    Block.calculate_merkle_root (permuteList l σ) ≠ Block.calculate_merkle_root l := by
  intro hroot
  apply hleaf
  have hplen : (permuteList l σ).length = l.length := permuteList_length l σ
  have hne : (permuteList l σ) ≠ [] := by
    intro h
    rw [h] at hplen
    simp at hplen
    omega
  have hne2 : l ≠ [] := by
    intro h
    rw [h] at hlen
    simp at hlen
  rw [Block.calculate_merkle_root, Block.calculate_merkle_root,
    if_neg (by simpa using hne), if_neg (by simpa using hne2)] at hroot
  exact merkleFold_inj l.length _ _ (by simp [hplen]) (by simp) (by omega)
    (fun x hx => by
      obtain ⟨t, _, rfl⟩ := List.mem_map.mp hx
      exact txLeaf_isDigest t)
    (fun x hx => by
      obtain ⟨t, _, rfl⟩ := List.mem_map.mp hx
      exact txLeaf_isDigest t) hroot

/-- Witness for the amended C6: swapping two transactions with different
senders changes the leaf sequence and therefore the root. -/
theorem C6_order_sensitivity_amended_witness :
    Block.calculate_merkle_root
        (permuteList [tDup, tOther] (Equiv.swap 0 1 : Equiv.Perm (Fin 2))) ≠
      Block.calculate_merkle_root [tDup, tOther] :=
  C6_order_sensitivity_amended [tDup, tOther] (Equiv.swap 0 1 : Equiv.Perm (Fin 2))
    (by decide) (by decide)

/-! ## Block hash invariants -/

/-- C4: a block's stored hash equals `calculate_hash` over the six hashed
fields right after construction (nonce 0), after any prefix of the
proof-of-work search, and after proof-of-stake validation; the preimage does
not include the validator, so setting it (with or without the recomputation
proof-of-stake performs) leaves the hash value unchanged. -/
theorem C4_block_hash_invariant :
    (∀ (index : Nat) (txs : List Transaction) (prev : String) (d : Nat) (t : ℤ),
      (Block.new index txs prev d t).nonce = 0 ∧
      (Block.new index txs prev d t).hash = Block.calculate_hash (Block.new index txs prev d t)) ∧
    (∀ (fuel : Nat) (b mined : Block), b.hash = Block.calculate_hash b →
      mineBlockGo fuel b = some mined → mined.hash = Block.calculate_hash mined) ∧
    (∀ (b : Block) (v : String) (s r : ℚ), b.hash = Block.calculate_hash b →
      (b.validate_with_pos v s r).2.hash = Block.calculate_hash (b.validate_with_pos v s r).2 ∧
      (b.validate_with_pos v s r).2.hash = b.hash) ∧
    (∀ (b : Block) (v : String),
      Block.calculate_hash { b with validator := some v } = Block.calculate_hash b ∧
      ({ b with validator := some v } : Block).hash = b.hash) := by
  refine ⟨fun _ _ _ _ _ => ⟨rfl, rfl⟩, ?_, ?_, fun _ _ => ⟨rfl, rfl⟩⟩
  · intro fuel
    induction fuel with
    | zero =>
      intro b mined hb hres
      simp only [mineBlockGo] at hres
      split at hres
      · cases hres
        exact hb
      · simp at hres
    | succ n ih =>
      intro b mined hb hres
      simp only [mineBlockGo] at hres
      split at hres
      · cases hres
        exact hb
      · exact ih _ mined rfl hres
  · intro b v s r hb
    rw [Block.validate_with_pos]
    split
    · exact ⟨rfl, hb.symm⟩
    · exact ⟨hb, rfl⟩

/-- Witness for C4: the fresh difficulty-0 block satisfies the invariant
after a nonce search that succeeds immediately. -/
theorem C4_block_hash_invariant_witness :
    mineBlockGo 0 genBlk = some genBlk ∧ genBlk.hash = Block.calculate_hash genBlk :=
  ⟨by decide, C4_block_hash_invariant.2.1 0 genBlk genBlk rfl (by decide)⟩

/-! ## Chain validation -/

theorem checkBlockPair_iff (a b : Block) :
    checkBlockPair a b = true ↔
      b.hash = Block.calculate_hash b ∧ b.previous_hash = a.hash ∧
      b.merkle_root = Block.calculate_merkle_root b.transactions := by
  simp [checkBlockPair, Bool.and_eq_true, and_assoc]

theorem validFrom_iff (prev : Block) (l : List Block) :
    validFrom prev l = true ↔
      ∀ i (h : i < l.length),
        checkBlockPair ((prev :: l).get ⟨i, Nat.lt_succ_of_lt h⟩) (l.get ⟨i, h⟩) = true := by
  induction l generalizing prev with
  | nil => simp [validFrom]
  | cons b rest ih =>
    rw [validFrom, Bool.and_eq_true, ih]
    constructor
    · rintro ⟨hc, hrest⟩ i h
      cases i with
      | zero => exact hc
      | succ j => exact hrest j (by simpa using h)
    · intro hall
      exact ⟨hall 0 (by simp), fun j hj => hall (j + 1) (by simpa using hj)⟩

/-- C3: `is_chain_valid` holds on a freshly constructed (genesis-only)
chain and, in general, holds exactly when every block after genesis passes
the three audits (recomputed hash, previous-hash linkage, recomputed Merkle
root) against its stored fields; the function is a pure boolean read of the
state. -/
theorem C3_is_chain_valid_audit :
    (∀ (d : Nat) (r : ℚ) (alg : ConsensusAlgorithm) (t : ℤ),
      (Blockchain.new d r alg t).is_chain_valid = true) ∧
    (∀ bc : Blockchain, bc.is_chain_valid = true ↔
      ∀ i (h : i + 1 < bc.chain.length),
        (bc.chain.get ⟨i + 1, h⟩).hash = Block.calculate_hash (bc.chain.get ⟨i + 1, h⟩) ∧
        (bc.chain.get ⟨i + 1, h⟩).previous_hash = (bc.chain.get ⟨i, Nat.lt_of_succ_lt h⟩).hash ∧
        (bc.chain.get ⟨i + 1, h⟩).merkle_root =
          Block.calculate_merkle_root (bc.chain.get ⟨i + 1, h⟩).transactions) := by
  constructor
  · intro d r alg t
    rfl
  · intro bc
    rcases bc with ⟨chain, d, p, m, w, alg, f, v⟩
    rcases chain with _ | ⟨g, rest⟩
    · simp [Blockchain.is_chain_valid]
    · show validFrom g rest = true ↔ _
      rw [validFrom_iff]
      constructor
      · intro H i h
        have := H i (by simpa using h)
        rw [checkBlockPair_iff] at this
        exact this
      · intro H i h
        rw [checkBlockPair_iff]
        exact H i (by simpa using h)

/-- Witness for C3: the audit passes on a freshly constructed chain. -/
theorem C3_is_chain_valid_audit_witness :
    (Blockchain.new 2 (100 : ℚ) ConsensusAlgorithm.ProofOfWork 0).is_chain_valid = true :=
  C3_is_chain_valid_audit.1 2 (100 : ℚ) ConsensusAlgorithm.ProofOfWork 0

/-! ## Transaction admission -/

/-- C2: `add_transaction` rejects an invalid transaction, rejects a
non-reward sender with no wallet, rejects an underfunded sender reporting
required = amount + fee against the available balance, and on success debits
the sender by exactly amount + fee, appends the id to the sender's history
and the transaction to the pool, touching nothing else; the reward sender
skips the check and the debit, and every error leaves the state unchanged. -/
theorem C2_add_transaction_contract (bc : Blockchain) (tx : Transaction) :
    (tx.is_valid = false →
      bc.add_transaction tx =
        (bc, Except.error (BlockchainError.InvalidTransaction "Транзакция невалидна"))) ∧
    (tx.is_valid = true → tx.sender ≠ "BLOCKCHAIN_REWARD" → bc.wallets tx.sender = none →
      bc.add_transaction tx =
        (bc, Except.error (BlockchainError.InvalidTransaction
          ("Wallet recipient " ++ tx.sender ++ " not found")))) ∧
    (∀ w : Wallet, tx.is_valid = true → tx.sender ≠ "BLOCKCHAIN_REWARD" →
      bc.wallets tx.sender = some w → w.balance < tx.amount + tx.fee →
      bc.add_transaction tx =
        (bc, Except.error (BlockchainError.InsufficientBalance (tx.amount + tx.fee) w.balance))) ∧
    (∀ w : Wallet, tx.is_valid = true → tx.sender ≠ "BLOCKCHAIN_REWARD" →
      bc.wallets tx.sender = some w → ¬ w.balance < tx.amount + tx.fee →
      (bc.add_transaction tx).2 = Except.ok () ∧
      (bc.add_transaction tx).1.wallets tx.sender = some
        { w with
          balance := w.balance - (tx.amount + tx.fee),
          transaction_history := w.transaction_history ++ [tx.id] } ∧
      (∀ a, a ≠ tx.sender → (bc.add_transaction tx).1.wallets a = bc.wallets a) ∧
      (bc.add_transaction tx).1.pending_transactions = bc.pending_transactions ++ [tx] ∧
      (bc.add_transaction tx).1.chain = bc.chain ∧
      (bc.add_transaction tx).1.validators = bc.validators) ∧
    (tx.is_valid = true → tx.sender = "BLOCKCHAIN_REWARD" →
      bc.add_transaction tx =
        ({ bc with pending_transactions := bc.pending_transactions ++ [tx] },
          Except.ok ())) ∧
    (∀ e, (bc.add_transaction tx).2 = Except.error e → (bc.add_transaction tx).1 = bc) := by
  refine ⟨?_, ?_, ?_, ?_, ?_, ?_⟩
  · intro hv
    simp [Blockchain.add_transaction, hv]
  · intro hv hs hw
    simp [Blockchain.add_transaction, hv, hs, hw]
  · intro w hv hs hw hlt
    have hblt : qlt w.balance (tx.amount + tx.fee) = true := by
      rw [qlt_iff]
      exact hlt
    simp [Blockchain.add_transaction, hv, hs, hw, hblt, qadd_eq]
  · intro w hv hs hw hnlt
    have hblt : qlt w.balance (tx.amount + tx.fee) = false := by
      rw [Bool.eq_false_iff, Ne, qlt_iff]
      exact hnlt
    refine ⟨by simp [Blockchain.add_transaction, hv, hs, hw, hblt, qadd_eq], ?_, ?_, ?_,
      ?_, ?_⟩
    · simp [Blockchain.add_transaction, hv, hs, hw, hblt, mapInsert, qsub_eq, qadd_eq]
    · intro a ha
      simp [Blockchain.add_transaction, hv, hs, hw, hblt, mapInsert, ha, qadd_eq]
    · simp [Blockchain.add_transaction, hv, hs, hw, hblt, qadd_eq]
    · simp [Blockchain.add_transaction, hv, hs, hw, hblt, qadd_eq]
    · simp [Blockchain.add_transaction, hv, hs, hw, hblt, qadd_eq]
  · intro hv hs
    simp [Blockchain.add_transaction, hv, hs]
  · intro e he
    by_cases hv : tx.is_valid
    · by_cases hs : tx.sender = "BLOCKCHAIN_REWARD"
      · simp [Blockchain.add_transaction, hv, hs] at he
      · cases hw : bc.wallets tx.sender with
        | none => simp [Blockchain.add_transaction, hv, hs, hw]
        | some w =>
          by_cases hb : qlt w.balance (qadd tx.amount tx.fee)
          · simp [Blockchain.add_transaction, hv, hs, hw, hb]
          · simp [Blockchain.add_transaction, hv, hs, hw, hb] at he
    · have hv' : tx.is_valid = false := by simpa using hv
      simp [Blockchain.add_transaction, hv']

/-- Witness for C2: the scenario transfer of 50 from the funded wallet
"alice" is admitted, landing in the pool. -/
theorem C2_add_transaction_contract_witness :
    (c1Funded.add_transaction c1Tx).2 = Except.ok () ∧
    (c1Funded.add_transaction c1Tx).1.pending_transactions =
      c1Funded.pending_transactions ++ [c1Tx] := by
  have h := (C2_add_transaction_contract c1Funded c1Tx).2.2.2.1
    { address := "alice", balance := 1000, staking_balance := 0, transaction_history := [] }
    (by decide) (by decide) (by decide)
    (by
      intro hlt
      rw [← qadd_eq, ← qlt_iff] at hlt
      exact absurd hlt (by decide))
  exact ⟨h.1, h.2.2.2.1⟩

/-! ## Wallet creation overwrites -/

/-- C10: calling `create_wallet` on an address that already holds a wallet
silently replaces it with a freshly initialized wallet (zero balance, zero
staking balance, empty history) and changes nothing else. -/
theorem C10_create_wallet_replaces (bc : Blockchain) (address : String) (w : Wallet)
    (_hw : bc.wallets address = some w) :
    (bc.create_wallet address).wallets address = some (Wallet.new address) ∧
    Wallet.new address =
      { address := address, balance := 0, staking_balance := 0, transaction_history := [] } ∧
    (∀ a, a ≠ address → (bc.create_wallet address).wallets a = bc.wallets a) ∧
    (bc.create_wallet address).chain = bc.chain ∧
    (bc.create_wallet address).pending_transactions = bc.pending_transactions ∧
    (bc.create_wallet address).difficulty = bc.difficulty ∧
    (bc.create_wallet address).mining_reward = bc.mining_reward ∧
    (bc.create_wallet address).transaction_fees = bc.transaction_fees ∧
    (bc.create_wallet address).validators = bc.validators ∧
    (bc.create_wallet address).consensus_algorithm = bc.consensus_algorithm := by
  refine ⟨by simp [Blockchain.create_wallet, mapInsert], rfl, ?_, rfl, rfl, rfl, rfl, rfl,
    rfl, rfl⟩
  intro a ha
  simp [Blockchain.create_wallet, mapInsert, ha]

/-- Witness for C10: re-creating the funded wallet "alice" resets it. -/
theorem C10_create_wallet_replaces_witness :
    (c1Funded.create_wallet "alice").wallets "alice" = some (Wallet.new "alice") :=
  (C10_create_wallet_replaces c1Funded "alice"
    { address := "alice", balance := 1000, staking_balance := 0, transaction_history := [] }
    (by decide)).1

/-! ## Proof-of-stake threshold -/

theorem validate_with_pos_succeeds_iff (b : Block) (v : String) (s r : ℚ) :
    (b.validate_with_pos v s r).1 = true ↔ r ≤ s / 1000 := by
  have hq : qle r (qdiv s (mkRat 1000 1)) = true ↔ r ≤ s / 1000 := by
    rw [qle_iff, qdiv_eq, mkRat_int]
    norm_num
  have hfst : (b.validate_with_pos v s r).1 = qle r (qdiv s (mkRat 1000 1)) := by
    rw [Block.validate_with_pos]
    split
    next h => exact h.symm
    next h => exact (Bool.not_eq_true _ ▸ h : _ = false).symm
  rw [hfst, hq]

/-- C9: proof-of-stake finalization succeeds exactly when the draw is at
most stake / 1000; a validator registered with stake 0 fails on every
strictly positive draw (so `mine_pending_transactions` returns a
consensus error), and a producer not present in the validator registry
always gets a consensus error. -/
theorem C9_pos_threshold_spec :
    (∀ (b : Block) (v : String) (s r : ℚ),
      (b.validate_with_pos v s r).1 = true ↔ r ≤ s / 1000) ∧
    (∀ (b : Block) (v : String) (r : ℚ), 0 < r →
      (b.validate_with_pos v 0 r).1 = false) ∧
    (∀ (bc : Blockchain) (miner : String) (tR tB : ℤ) (fuel : Nat) (draw : ℚ)
      (deleg : Bool),
      bc.consensus_algorithm = ConsensusAlgorithm.ProofOfStake →
      (bc.wallets miner).isSome = true → bc.validators miner = none →
      bc.mine_pending_transactions miner tR tB fuel draw deleg =
        some ({ bc with
                transaction_fees := sumFees bc.pending_transactions,
                pending_transactions := bc.pending_transactions ++
                  [Transaction.new "BLOCKCHAIN_REWARD" miner
                    (bc.mining_reward + sumFees bc.pending_transactions)
                    TransactionType.Transfer tR] },
          Except.error (BlockchainError.ConsensusError
            ("This address " ++ miner ++ " is not a validator")))) ∧
    (∀ (bc : Blockchain) (miner : String) (tR tB : ℤ) (fuel : Nat) (draw : ℚ)
      (deleg : Bool),
      bc.consensus_algorithm = ConsensusAlgorithm.ProofOfStake →
      (bc.wallets miner).isSome = true → bc.validators miner = some 0 → 0 < draw →
      bc.mine_pending_transactions miner tR tB fuel draw deleg =
        some ({ bc with
                transaction_fees := sumFees bc.pending_transactions,
                pending_transactions := bc.pending_transactions ++
                  [Transaction.new "BLOCKCHAIN_REWARD" miner
                    (bc.mining_reward + sumFees bc.pending_transactions)
                    TransactionType.Transfer tR] },
          Except.error (BlockchainError.ConsensusError
            "Cannot validate block with PoS"))) := by
  have hzero : ∀ (b : Block) (v : String) (r : ℚ), 0 < r →
      (b.validate_with_pos v 0 r).1 = false := by
    intro b v r hr
    rw [Bool.eq_false_iff, Ne, validate_with_pos_succeeds_iff]
    norm_num
    exact hr
  refine ⟨validate_with_pos_succeeds_iff, hzero, ?_, ?_⟩
  · intro bc miner tR tB fuel draw deleg halg hw hv
    obtain ⟨mw, hmw⟩ := Option.isSome_iff_exists.mp hw
    rw [← qadd_eq]
    simp [Blockchain.mine_pending_transactions, hmw, halg, hv]
  · intro bc miner tR tB fuel draw deleg halg hw hv hdraw
    obtain ⟨mw, hmw⟩ := Option.isSome_iff_exists.mp hw
    rw [← qadd_eq]
    simp [Blockchain.mine_pending_transactions, hmw, halg, hv, hzero _ _ _ hdraw]

/-- Witness for C9: a validator registered with stake 0 fails on the draw
one half; the chain state after the failure carries the queued reward
transaction. -/
theorem C9_pos_threshold_spec_witness :
    posZeroBC.mine_pending_transactions "v" 3 4 0 (mkRat 1 2) false =
      some ({ posZeroBC with
              transaction_fees := sumFees posZeroBC.pending_transactions,
              pending_transactions := posZeroBC.pending_transactions ++
                [Transaction.new "BLOCKCHAIN_REWARD" "v"
                  (posZeroBC.mining_reward + sumFees posZeroBC.pending_transactions)
                  TransactionType.Transfer 3] },
        Except.error (BlockchainError.ConsensusError "Cannot validate block with PoS")) :=
  C9_pos_threshold_spec.2.2.2 posZeroBC "v" 3 4 0 (mkRat 1 2) false rfl (by decide)
    (by decide)
    (by
      rw [← qlt_iff]
      decide)

/-! ## Consensus failure leaves the state intact -/

/-- C5: when block production under proof-of-stake or
delegated-proof-of-stake fails at the consensus step, the call returns a
consensus error, the chain, wallet ledger and validator registry are
untouched, and the pending pool is exactly the pre-call pool with the
synthesized reward transaction appended, still queued for the next
attempt. -/
theorem C5_consensus_failure_preserves_state (bc : Blockchain) (miner : String)
    (tR tB : ℤ) (fuel : Nat) (draw : ℚ) (deleg : Bool) (st : Blockchain)
    (e : BlockchainError)
    (halg : bc.consensus_algorithm = ConsensusAlgorithm.ProofOfStake ∨
      bc.consensus_algorithm = ConsensusAlgorithm.DelegatedProofOfStake)
    (hw : (bc.wallets miner).isSome = true)
    (hres : bc.mine_pending_transactions miner tR tB fuel draw deleg =
      some (st, Except.error e)) :
    (∃ msg, e = BlockchainError.ConsensusError msg) ∧
    st.chain = bc.chain ∧
    st.wallets = bc.wallets ∧
    st.validators = bc.validators ∧
    st.pending_transactions = bc.pending_transactions ++
      [Transaction.new "BLOCKCHAIN_REWARD" miner
        (bc.mining_reward + sumFees bc.pending_transactions)
        TransactionType.Transfer tR] := by
  obtain ⟨mw, hmw⟩ := Option.isSome_iff_exists.mp hw
  rw [← qadd_eq]
  rcases halg with halg | halg
  · simp only [Blockchain.mine_pending_transactions, hmw, halg] at hres
    cases hv : bc.validators miner with
    | none =>
      simp only [hv, Option.some.injEq, Prod.mk.injEq] at hres
      obtain ⟨hst, he⟩ := hres
      cases he
      subst hst
      exact ⟨⟨_, rfl⟩, rfl, rfl, rfl, rfl⟩
    | some stake =>
      simp only [hv] at hres
      split at hres
      · simp at hres
      · simp only [Option.some.injEq, Prod.mk.injEq] at hres
        obtain ⟨hst, he⟩ := hres
        cases he
        subst hst
        exact ⟨⟨_, rfl⟩, rfl, rfl, rfl, rfl⟩
  · simp only [Blockchain.mine_pending_transactions, hmw, halg] at hres
    cases deleg with
    | false =>
      simp only [Bool.not_false, reduceIte, Option.some.injEq, Prod.mk.injEq] at hres
      obtain ⟨hst, he⟩ := hres
      cases he
      subst hst
      exact ⟨⟨_, rfl⟩, rfl, rfl, rfl, rfl⟩
    | true =>
      simp at hres

/-- Witness for C5: the proof-of-stake chain whose producer is not a
registered validator fails at the consensus step with the ledger intact. -/
theorem C5_consensus_failure_preserves_state_witness :
    posSt.chain = posBC.chain ∧ posSt.wallets = posBC.wallets :=
  have h := C5_consensus_failure_preserves_state posBC "v" 7 8 0 0 false posSt
    (BlockchainError.ConsensusError ("This address " ++ "v" ++ " is not a validator"))
    (Or.inl rfl) (by decide) (by rfl)
  ⟨h.2.1, h.2.2.1⟩

/-! ## Difficulty retargeting -/

theorem adjust_difficulty_cases (bc : Blockchain) :
    (¬ (bc.chain.length % 10 = 0 ∧ bc.chain.length > 1) → bc.adjust_difficulty = bc) ∧
    ((bc.chain.length % 10 = 0 ∧ bc.chain.length > 1) →
      ((avgTime bc < (0.9 : ℚ) * 60 →
         bc.adjust_difficulty = { bc with difficulty := bc.difficulty + 1 }) ∧
       (¬ avgTime bc < (0.9 : ℚ) * 60 →
         (1.1 : ℚ) * 60 < avgTime bc ∧ 1 < bc.difficulty →
         bc.adjust_difficulty = { bc with difficulty := bc.difficulty - 1 }) ∧
       (¬ avgTime bc < (0.9 : ℚ) * 60 →
         ¬ ((1.1 : ℚ) * 60 < avgTime bc ∧ 1 < bc.difficulty) →
         bc.adjust_difficulty = bc))) := by
  have hA : qlt (qdiv (mkRat (bc.get_latest_block.timestamp -
        ((bc.chain.drop (bc.chain.length - 10)).headD emptyChainBlock).timestamp) 1)
        (mkRat 10 1)) (qmul (mkRat 60 1) (mkRat 9 10)) = true ↔
      avgTime bc < (0.9 : ℚ) * 60 := by
    rw [qlt_iff, qdiv_eq, qmul_eq, mkRat_int, mkRat_int, mkRat_int, avgTime,
      Rat.mkRat_eq_divInt, Rat.divInt_eq_div]
    push_cast
    norm_num
  have hB : qlt (qmul (mkRat 60 1) (mkRat 11 10))
        (qdiv (mkRat (bc.get_latest_block.timestamp -
          ((bc.chain.drop (bc.chain.length - 10)).headD emptyChainBlock).timestamp) 1)
        (mkRat 10 1)) = true ↔
      (1.1 : ℚ) * 60 < avgTime bc := by
    rw [qlt_iff, qdiv_eq, qmul_eq, mkRat_int, mkRat_int, mkRat_int, avgTime,
      Rat.mkRat_eq_divInt, Rat.divInt_eq_div]
    push_cast
    norm_num
  refine ⟨?_, ?_⟩
  · intro hc
    rw [Blockchain.adjust_difficulty, if_neg hc]
  · intro hc
    refine ⟨?_, ?_, ?_⟩
    · intro ha
      have ha' := hA.mpr ha
      simp only [Blockchain.adjust_difficulty, hc, and_self, if_true, ha', reduceIte]
    · intro ha hb
      have ha' : qlt (qdiv (mkRat (bc.get_latest_block.timestamp -
            ((bc.chain.drop (bc.chain.length - 10)).headD emptyChainBlock).timestamp) 1)
            (mkRat 10 1)) (qmul (mkRat 60 1) (mkRat 9 10)) = false := by
        rw [Bool.eq_false_iff, Ne, hA]
        exact ha
      have hb1 := hB.mpr hb.1
      have hb2 : bc.difficulty > 1 := hb.2
      simp only [Blockchain.adjust_difficulty, hc, and_self, if_true, ha', hb1, hb2,
        Bool.false_eq_true, if_false, and_true, true_and, eq_self_iff_true, reduceIte]
    · intro ha hb
      have ha' : qlt (qdiv (mkRat (bc.get_latest_block.timestamp -
            ((bc.chain.drop (bc.chain.length - 10)).headD emptyChainBlock).timestamp) 1)
            (mkRat 10 1)) (qmul (mkRat 60 1) (mkRat 9 10)) = false := by
        rw [Bool.eq_false_iff, Ne, hA]
        exact ha
      by_cases hd : bc.difficulty > 1
      · have hb1 : qlt (qmul (mkRat 60 1) (mkRat 11 10))
            (qdiv (mkRat (bc.get_latest_block.timestamp -
              ((bc.chain.drop (bc.chain.length - 10)).headD emptyChainBlock).timestamp) 1)
            (mkRat 10 1)) = false := by
          rw [Bool.eq_false_iff, Ne, hB]
          intro hlt
          exact hb ⟨hlt, hd⟩
        simp only [Blockchain.adjust_difficulty, hc, and_self, if_true, ha', hb1,
          Bool.false_eq_true, if_false, false_and, and_false, reduceIte]
      · have hd' : ¬ (1 < bc.difficulty) := hd
        simp only [Blockchain.adjust_difficulty, hc, and_self, if_true, ha',
          Bool.false_eq_true, if_false, hd', and_false, reduceIte]

/-- C8: `adjust_difficulty` modifies only the difficulty field, acts only
when the chain length is a positive multiple of 10, and then compares the
average block time (ten-block timestamp span over 10) with the 60-unit
target: below 0.9 × 60 the difficulty rises by 1, above 1.1 × 60 with
difficulty above 1 it drops by 1, otherwise nothing changes. -/
theorem C8_adjust_difficulty_spec (bc : Blockchain) :
    ((bc.adjust_difficulty).chain = bc.chain ∧
     (bc.adjust_difficulty).pending_transactions = bc.pending_transactions ∧
     (bc.adjust_difficulty).mining_reward = bc.mining_reward ∧
     (bc.adjust_difficulty).wallets = bc.wallets ∧
     (bc.adjust_difficulty).consensus_algorithm = bc.consensus_algorithm ∧
     (bc.adjust_difficulty).transaction_fees = bc.transaction_fees ∧
     (bc.adjust_difficulty).validators = bc.validators) ∧
    (¬ (∃ k, 0 < k ∧ bc.chain.length = 10 * k) → bc.adjust_difficulty = bc) ∧
    ((∃ k, 0 < k ∧ bc.chain.length = 10 * k) →
      ((avgTime bc < (0.9 : ℚ) * 60 →
         (bc.adjust_difficulty).difficulty = bc.difficulty + 1) ∧
       (¬ avgTime bc < (0.9 : ℚ) * 60 →
         (1.1 : ℚ) * 60 < avgTime bc ∧ 1 < bc.difficulty →
         (bc.adjust_difficulty).difficulty = bc.difficulty - 1) ∧
       (¬ avgTime bc < (0.9 : ℚ) * 60 →
         ¬ ((1.1 : ℚ) * 60 < avgTime bc ∧ 1 < bc.difficulty) →
         bc.adjust_difficulty = bc))) := by
  obtain ⟨hno, hyes⟩ := adjust_difficulty_cases bc
  have hcond : (bc.chain.length % 10 = 0 ∧ bc.chain.length > 1) ↔
      (∃ k, 0 < k ∧ bc.chain.length = 10 * k) := by
    constructor
    · rintro ⟨h1, h2⟩
      exact ⟨bc.chain.length / 10, by omega, by omega⟩
    · rintro ⟨k, hk, he⟩
      omega
  refine ⟨?_, ?_, ?_⟩
  · by_cases hc : bc.chain.length % 10 = 0 ∧ bc.chain.length > 1
    · obtain ⟨f1, f2, f3⟩ := hyes hc
      by_cases ha : avgTime bc < (0.9 : ℚ) * 60
      · rw [f1 ha]
        exact ⟨rfl, rfl, rfl, rfl, rfl, rfl, rfl⟩
      · by_cases hb : (1.1 : ℚ) * 60 < avgTime bc ∧ 1 < bc.difficulty
        · rw [f2 ha hb]
          exact ⟨rfl, rfl, rfl, rfl, rfl, rfl, rfl⟩
        · rw [f3 ha hb]
          exact ⟨rfl, rfl, rfl, rfl, rfl, rfl, rfl⟩
    · rw [hno hc]
      exact ⟨rfl, rfl, rfl, rfl, rfl, rfl, rfl⟩
  · intro hex
    exact hno (fun hc => hex (hcond.mp hc))
  · intro hex
    obtain ⟨f1, f2, f3⟩ := hyes (hcond.mpr hex)
    exact ⟨fun ha => by rw [f1 ha], fun ha hb => by rw [f2 ha hb], f3⟩

theorem tenBC_avg_fast : avgTime tenBC < (0.9 : ℚ) * 60 := by
  have h1 : tenBC.get_latest_block.timestamp = 0 := by decide
  have h2 : ((tenBC.chain.drop (tenBC.chain.length - 10)).headD emptyChainBlock).timestamp
      = 0 := by decide
  rw [avgTime, h1, h2]
  norm_num

/-- Witness for C8: ten blocks with zero timestamp span (average 0) trigger
an increase from difficulty 5 to 6. -/
theorem C8_adjust_difficulty_spec_witness :
    (tenBC.adjust_difficulty).difficulty = tenBC.difficulty + 1 :=
  ((C8_adjust_difficulty_spec tenBC).2.2 ⟨1, by decide, by decide⟩).1 tenBC_avg_fast

/-! ## The concrete settlement scenario -/

/-- C1: the spec scenario (alice 1000, bob 500, transfer of 50 with fee
0.05, then a successful proof-of-work production by "miner" with reward
100).  Admission debits alice to 949.95 and settlement credits bob to 550,
but the miner's balance stays 0 — not the claimed 100.05 — because the
settlement pass skips every transaction whose sender is
`"BLOCKCHAIN_REWARD"`, so the synthesized reward transaction never credits
the block producer. -/
theorem C1_reward_transaction_never_credited :
    (c1Funded.add_transaction c1Tx).2 = Except.ok () ∧
    c1Admitted.get_balance "alice" = 949.95 ∧
    (c1Result.map fun p =>
      (p.2, p.1.get_balance "alice", p.1.get_balance "bob", p.1.get_balance "miner")) =
      some (Except.ok (), 949.95, 550, 0) := by
  refine ⟨by decide, ?_, ?_⟩
  · have h : c1Admitted.get_balance "alice" = mkRat 18999 20 := by decide
    rw [h, Rat.mkRat_eq_divInt, Rat.divInt_eq_div]
    norm_num
  · have h : (c1Result.map fun p =>
        (p.2, p.1.get_balance "alice", p.1.get_balance "bob", p.1.get_balance "miner")) =
        some (Except.ok (), mkRat 18999 20, mkRat 550 1, mkRat 0 1) := by decide
    have e1 : mkRat 18999 20 = (949.95 : ℚ) := by
      rw [Rat.mkRat_eq_divInt, Rat.divInt_eq_div]
      norm_num
    have e2 : mkRat 550 1 = (550 : ℚ) := by
      rw [mkRat_int]
      norm_num
    have e3 : mkRat 0 1 = (0 : ℚ) := by
      rw [mkRat_int]
      norm_num
    rw [h, e1, e2, e3]
